import Mathlib

/-!
Verification of the `ML_nuggets` repository (two instructional notebooks:
`simclr.ipynb` and `anomaly_detection_jets.ipynb`) against its
natural-language specification.

The numerical code is embedded shallowly over `ℝ`: tensors become functions
out of `Fin`, `tf.exp`/`tf.math.log` become `Real.exp`/`Real.log`, and the
randomness of augmentation layers and of `Dataset.shuffle` is made explicit
as parameters (random draws, permutations).
-/

open Finset

noncomputable section

/-! ### NT-Xent contrastive loss (`simclr.ipynb`, `contrastive_loss`)

The source concatenates the two batches `z1, z2 : (N, D)` into `z : (2N, D)`,
forms the Gram matrix `sim = z @ z.T`, divides by the temperature, subtracts
`1e9` on the diagonal (`sim = sim - 1e9 * mask`), extracts the positive
entries `sim[i][i+N]` and `sim[i+N][i]`, and returns the mean over the `2N`
rows of `-log (exp positives / sum_k exp sim[i][k])`. -/

variable {N D : ℕ}

/-- Embeds `tf.concat([z1, z2], axis=0)`: rows `0..N-1` come from `z1`,
rows `N..2N-1` from `z2`. -/
def concatBatch (z1 z2 : Fin N → Fin D → ℝ) : Fin (2 * N) → Fin D → ℝ :=
  fun i => if h : (i : ℕ) < N then z1 ⟨i, h⟩ else z2 ⟨(i : ℕ) - N, by omega⟩

/-- Embeds `tf.matmul(z, z, transpose_b=True)`: dot-product similarity matrix of the
concatenated batch. -/
def simMatrix (z : Fin (2 * N) → Fin D → ℝ) : Fin (2 * N) → Fin (2 * N) → ℝ :=
  fun i j => ∑ d, z i d * z j d

/-- The positive partner: row `i` is paired with row `i + N` (and row `i + N`
with row `i`), exactly the entries extracted by
`tf.linalg.diag_part(sim, k=batch_size)` and `k=-batch_size`. -/
def partner (i : Fin (2 * N)) : Fin (2 * N) :=
  if h : (i : ℕ) < N then ⟨(i : ℕ) + N, by omega⟩ else ⟨(i : ℕ) - N, by omega⟩

/-- The two in-place updates of `sim`: temperature scaling
(`sim /= temperature`) followed by the diagonal suppression
`sim = sim - 1e9 * mask` with `mask = tf.eye(2 * batch_size)`. -/
def maskedSim (S : Fin (2 * N) → Fin (2 * N) → ℝ) (t : ℝ) :
    Fin (2 * N) → Fin (2 * N) → ℝ :=
  fun i j => S i j / t - 1e9 * (if i = j then 1 else 0)

/-- The tail of `contrastive_loss` after the Gram matrix is formed:
temperature scaling and masking (`maskedSim`), extraction of the positives
from the masked matrix, the row-wise softmax denominator
`tf.reduce_sum(tf.exp(sim), axis=1)`, the per-sample loss
`-log (numerator / denominator)`, and the final `tf.reduce_mean` over the
`2N` rows. -/
def ntXentOfSim (S : Fin (2 * N) → Fin (2 * N) → ℝ) (t : ℝ) : ℝ :=
  (∑ i, -Real.log (Real.exp (maskedSim S t i (partner i)) /
      ∑ k, Real.exp (maskedSim S t i k)))
    / (2 * N : ℕ)

/-- Embeds `contrastive_loss(z1, z2, temperature)` from `simclr.ipynb`. -/
def contrastive_loss (z1 z2 : Fin N → Fin D → ℝ) (t : ℝ) : ℝ :=
  ntXentOfSim (simMatrix (concatBatch z1 z2)) t

/-- The published NT-Xent definition as worded by the specification: the mean
over all `2N` concatenated samples `i` of
`-log (exp (sim(i, p i) / t) / ∑_{k ≠ i} exp (sim(i, k) / t))`, the
self-similarity `k = i` being excluded exactly (not suppressed by `-1e9`). -/
def ntXentPublished (z1 z2 : Fin N → Fin D → ℝ) (t : ℝ) : ℝ :=
  (∑ i, -Real.log (Real.exp (simMatrix (concatBatch z1 z2) i (partner i) / t) /
      ∑ k ∈ Finset.univ.erase i,
        Real.exp (simMatrix (concatBatch z1 z2) i k / t)))
    / (2 * N : ℕ)

theorem partner_ne (i : Fin (2 * N)) : partner i ≠ i := by
  have hN : 0 < N := by
    rcases Nat.eq_zero_or_pos N with h | h
    · exact absurd i.isLt (by omega)
    · exact h
  unfold partner
  split <;> (intro hc; apply_fun Fin.val at hc; simp at hc; omega)

theorem partner_partner (i : Fin (2 * N)) : partner (partner i) = i := by
  unfold partner
  split <;> rename_i h
  · have : ¬ ((i : ℕ) + N < N) := by omega
    simp only [this, dif_neg, not_false_iff]
    exact Fin.ext (by simp)
  · have hi := i.isLt
    have : (i : ℕ) - N < N := by omega
    simp only [this, dif_pos]
    exact Fin.ext (by simp; omega)

theorem ntXentOfSim_nonneg (S : Fin (2 * N) → Fin (2 * N) → ℝ) (t : ℝ) :
    0 ≤ ntXentOfSim S t := by
  unfold ntXentOfSim
  apply div_nonneg _ (by positivity)
  apply Finset.sum_nonneg
  intro i _
  have hd : 0 < ∑ k, Real.exp (maskedSim S t i k) :=
    Finset.sum_pos (fun k _ => Real.exp_pos _) ⟨i, mem_univ i⟩
  have hnum : Real.exp (maskedSim S t i (partner i)) ≤
      ∑ k, Real.exp (maskedSim S t i k) :=
    Finset.single_le_sum (fun k _ => (Real.exp_pos _).le) (mem_univ _)
  have hlog : Real.log (Real.exp (maskedSim S t i (partner i)) /
      ∑ k, Real.exp (maskedSim S t i k)) ≤ 0 :=
    Real.log_nonpos (by positivity) ((div_le_one hd).mpr hnum)
  linarith

/-- C2: for equal-size batches of L2-normalized embeddings and positive
temperature, `contrastive_loss` returns a non-negative value. -/
theorem contrastive_loss_nonneg (z1 z2 : Fin N → Fin D → ℝ) (t : ℝ)
    (ht : 0 < t) (h1 : ∀ i, ∑ d, (z1 i d) ^ 2 = 1)
    (h2 : ∀ i, ∑ d, (z2 i d) ^ 2 = 1) :
    0 ≤ contrastive_loss z1 z2 t :=
  ntXentOfSim_nonneg _ _

/-- Witness for C2 at the concrete normalized batches `z1 = z2 = [[1]]`
and temperature `1`. -/
theorem contrastive_loss_nonneg_witness :
    0 ≤ contrastive_loss (fun _ _ => (1 : ℝ) : Fin 1 → Fin 1 → ℝ)
      (fun _ _ => 1) 1 :=
  contrastive_loss_nonneg _ _ 1 one_pos (fun _ => by simp) (fun _ => by simp)

/-- C1 (amended): `contrastive_loss` equals the mean over all `2N`
concatenated samples of `-log (exp (sim(i, p i) / t) / denom_i)` where the
denominator is `∑_{k ≠ i} exp (sim(i, k) / t)` PLUS the residual term
`exp (sim(i, i) / t - 1e9)` left over by the `- 1e9 * mask` diagonal
suppression (the self-similarity is attenuated, not removed). -/
theorem contrastive_loss_eq_masked_formula (z1 z2 : Fin N → Fin D → ℝ)
    (t : ℝ) :
    contrastive_loss z1 z2 t =
      (∑ i, -Real.log
        (Real.exp (simMatrix (concatBatch z1 z2) i (partner i) / t) /
          ((∑ k ∈ Finset.univ.erase i,
              Real.exp (simMatrix (concatBatch z1 z2) i k / t)) +
            Real.exp (simMatrix (concatBatch z1 z2) i i / t - 1e9))))
      / (2 * N : ℕ) := by
  unfold contrastive_loss ntXentOfSim
  congr 1
  apply Finset.sum_congr rfl
  intro i _
  have hnum : maskedSim (simMatrix (concatBatch z1 z2)) t i (partner i) =
      simMatrix (concatBatch z1 z2) i (partner i) / t := by
    unfold maskedSim
    rw [if_neg (fun h => partner_ne i h.symm)]
    ring
  have hden : (∑ k, Real.exp (maskedSim (simMatrix (concatBatch z1 z2)) t i k)) =
      (∑ k ∈ Finset.univ.erase i,
        Real.exp (simMatrix (concatBatch z1 z2) i k / t)) +
      Real.exp (simMatrix (concatBatch z1 z2) i i / t - 1e9) := by
    rw [← Finset.sum_erase_add _ _ (mem_univ i)]
    congr 1
    · apply Finset.sum_congr rfl
      intro k hk
      have hki : i ≠ k := fun h => (Finset.mem_erase.mp hk).1 h.symm
      unfold maskedSim
      rw [if_neg hki]
      ring_nf
    · unfold maskedSim
      rw [if_pos rfl]
      ring_nf
  rw [hnum, hden]

/-- C1 counterexample: at the concrete batches `z1 = z2 = [[1]]` (N = 1,
D = 1) and temperature `1`, the value computed by `contrastive_loss`
differs from the published NT-Xent definition: the `- 1e9 * mask` trick
leaves the residual term `exp (1 - 1e9) > 0` in the denominator instead of
removing the self-similarity exactly. -/
theorem contrastive_loss_ne_published :
    contrastive_loss (fun _ _ => (1 : ℝ) : Fin 1 → Fin 1 → ℝ)
      (fun _ _ => 1) 1 ≠
    ntXentPublished (fun _ _ => (1 : ℝ) : Fin 1 → Fin 1 → ℝ)
      (fun _ _ => 1) 1 := by
  have hS : simMatrix (N := 1)
      (concatBatch (fun _ _ => (1 : ℝ) : Fin 1 → Fin 1 → ℝ) (fun _ _ => 1)) =
      fun _ _ => 1 := by
    funext i j
    unfold simMatrix concatBatch
    split <;> split <;> simp
  have hcard : (Finset.univ : Finset (Fin (2 * 1))).card = 2 := by
    rw [Finset.card_univ]; rfl
  -- the right-hand side (the published formula) evaluates to 0
  have hRHS : ntXentPublished (fun _ _ => (1 : ℝ) : Fin 1 → Fin 1 → ℝ)
      (fun _ _ => 1) 1 = 0 := by
    unfold ntXentPublished
    rw [hS]
    have hterm : ∀ i : Fin (2 * 1),
        -Real.log (Real.exp ((1 : ℝ) / 1) /
          ∑ k ∈ Finset.univ.erase i, Real.exp ((1 : ℝ) / 1)) = 0 := by
      intro i
      rw [Finset.sum_const, Finset.card_erase_of_mem (mem_univ i), hcard]
      norm_num
    rw [Finset.sum_congr rfl (fun i _ => hterm i)]
    simp
  -- the left-hand side (the code) evaluates to a strictly positive value
  have hsummand : ∀ i : Fin (2 * 1),
      -Real.log (Real.exp (maskedSim (fun _ _ => (1 : ℝ)) 1 i (partner i)) /
        ∑ k, Real.exp (maskedSim (fun _ _ => (1 : ℝ)) 1 i k)) =
      -Real.log (Real.exp 1 / (Real.exp 1 + Real.exp (1 - 1e9))) := by
    intro i
    have h1 : maskedSim (fun _ _ => (1 : ℝ)) 1 i (partner i) = 1 := by
      unfold maskedSim
      rw [if_neg (fun h => partner_ne i h.symm)]
      norm_num
    have h2 : (∑ k, Real.exp (maskedSim (fun _ _ => (1 : ℝ)) 1 i k)) =
        Real.exp 1 + Real.exp (1 - 1e9) := by
      rw [← Finset.sum_erase_add _ _ (mem_univ i)]
      have hoff : ∀ k ∈ Finset.univ.erase i,
          Real.exp (maskedSim (fun _ _ => (1 : ℝ)) 1 i k) = Real.exp 1 := by
        intro k hk
        have hki : i ≠ k := fun h => (Finset.mem_erase.mp hk).1 h.symm
        unfold maskedSim
        rw [if_neg hki]
        norm_num
      rw [Finset.sum_congr rfl hoff, Finset.sum_const,
        Finset.card_erase_of_mem (mem_univ i), hcard]
      have hdiag : maskedSim (fun _ _ => (1 : ℝ)) 1 i i = 1 - 1e9 := by
        unfold maskedSim
        rw [if_pos rfl]
        norm_num
      rw [hdiag]
      norm_num
    rw [h1, h2]
  have hLHS : contrastive_loss (fun _ _ => (1 : ℝ) : Fin 1 → Fin 1 → ℝ)
      (fun _ _ => 1) 1 =
      -Real.log (Real.exp 1 / (Real.exp 1 + Real.exp (1 - 1e9))) := by
    unfold contrastive_loss ntXentOfSim
    rw [hS, Finset.sum_congr rfl (fun i _ => hsummand i), Finset.sum_const,
      hcard]
    push_cast
    ring
  have hpos : 0 < -Real.log (Real.exp 1 / (Real.exp 1 + Real.exp (1 - 1e9))) := by
    have hr1 : Real.exp 1 / (Real.exp 1 + Real.exp (1 - 1e9)) < 1 := by
      rw [div_lt_one (by positivity)]
      have := Real.exp_pos (1 - 1e9)
      linarith
    have := Real.log_neg (by positivity) hr1
    linarith
  rw [hLHS, hRHS]
  exact ne_of_gt hpos

theorem neg_log_div_exp (m d : ℝ) (hd : 0 < d) :
    -Real.log (Real.exp m / d) = Real.log d - m := by
  rw [Real.log_div (Real.exp_ne_zero m) (ne_of_gt hd), Real.log_exp]
  ring

theorem row_loss_strictAnti (t C : ℝ) (ht : 0 < t) (hC : 0 < C)
    {s s' : ℝ} (h : s < s') :
    Real.log (Real.exp (s' / t) + C) - s' / t <
      Real.log (Real.exp (s / t) + C) - s / t := by
  have key : ∀ u : ℝ,
      Real.log (Real.exp u + C) - u = Real.log (1 + C * Real.exp (-u)) := by
    intro u
    have hcancel : Real.exp (-u) * Real.exp u = 1 := by
      rw [← Real.exp_add]
      simp
    have hfac : Real.exp u + C = (1 + C * Real.exp (-u)) * Real.exp u := by
      linear_combination (-C) * hcancel
    rw [hfac, Real.log_mul (by positivity) (Real.exp_ne_zero u), Real.log_exp]
    ring
  rw [key, key]
  apply Real.log_lt_log (by positivity)
  have hdiv : s / t < s' / t := (div_lt_div_right ht).mpr h
  have hexp : Real.exp (-(s' / t)) < Real.exp (-(s / t)) :=
    Real.exp_lt_exp.mpr (by linarith)
  nlinarith

/-- C3: the NT-Xent value computed by `contrastive_loss` (whose tail is
`ntXentOfSim` applied to the similarity matrix) is strictly decreasing in a
positive-pair entry of the similarity matrix: increasing `sim[a][partner a]`
(i.e. `sim[i][i+N]` or `sim[i+N][i]`) with every other entry held fixed
strictly decreases the returned loss, for every temperature `t > 0`. -/
theorem ntXentOfSim_strictAnti_positive_pair (t : ℝ) (a b : Fin (2 * N))
    (S S' : Fin (2 * N) → Fin (2 * N) → ℝ) (ht : 0 < t) (hb : b = partner a)
    (hinc : S a b < S' a b)
    (hother : ∀ x y, ¬(x = a ∧ y = b) → S' x y = S x y) :
    ntXentOfSim S' t < ntXentOfSim S t := by
  subst hb
  have hab : a ≠ partner a := fun h => partner_ne a h.symm
  have h2N : 0 < 2 * N := by have := a.isLt; omega
  -- the common part of the two softmax denominators of row `a`
  set C : ℝ := ∑ k ∈ Finset.univ.erase (partner a),
    Real.exp (maskedSim S t a k) with hCdef
  have hC : 0 < C :=
    Finset.sum_pos (fun k _ => Real.exp_pos _)
      ⟨a, Finset.mem_erase.mpr ⟨hab, mem_univ a⟩⟩
  have hposS : maskedSim S t a (partner a) = S a (partner a) / t := by
    unfold maskedSim
    rw [if_neg hab]
    ring
  have hposS' : maskedSim S' t a (partner a) = S' a (partner a) / t := by
    unfold maskedSim
    rw [if_neg hab]
    ring
  have hCommon : ∀ k, k ≠ partner a → maskedSim S' t a k = maskedSim S t a k := by
    intro k hk
    unfold maskedSim
    rw [hother a k (fun hx => hk hx.2)]
  have hdenS : (∑ k, Real.exp (maskedSim S t a k)) =
      Real.exp (S a (partner a) / t) + C := by
    rw [← Finset.sum_erase_add _ _ (mem_univ (partner a)), hposS, ← hCdef]
    ring
  have hdenS' : (∑ k, Real.exp (maskedSim S' t a k)) =
      Real.exp (S' a (partner a) / t) + C := by
    rw [← Finset.sum_erase_add _ _ (mem_univ (partner a)), hposS']
    have : (∑ k ∈ Finset.univ.erase (partner a),
        Real.exp (maskedSim S' t a k)) = C := by
      rw [hCdef]
      exact Finset.sum_congr rfl
        (fun k hk => by rw [hCommon k (Finset.mem_erase.mp hk).1])
    rw [this]
    ring
  have hstrict : -Real.log (Real.exp (maskedSim S' t a (partner a)) /
        ∑ k, Real.exp (maskedSim S' t a k)) <
      -Real.log (Real.exp (maskedSim S t a (partner a)) /
        ∑ k, Real.exp (maskedSim S t a k)) := by
    rw [neg_log_div_exp _ _ (Finset.sum_pos (fun k _ => Real.exp_pos _)
        ⟨a, mem_univ a⟩),
      neg_log_div_exp _ _ (Finset.sum_pos (fun k _ => Real.exp_pos _)
        ⟨a, mem_univ a⟩), hdenS, hdenS', hposS, hposS']
    exact row_loss_strictAnti t C ht hC hinc
  unfold ntXentOfSim
  rw [div_lt_div_right (by exact_mod_cast h2N)]
  apply Finset.sum_lt_sum
  · intro i _
    by_cases hia : i = a
    · subst hia
      exact le_of_lt hstrict
    · apply le_of_eq
      have hrow : ∀ k, maskedSim S' t i k = maskedSim S t i k := by
        intro k
        unfold maskedSim
        rw [hother i k (fun hx => hia hx.1)]
      rw [hrow, Finset.sum_congr rfl (fun k _ => by rw [hrow k])]
  · exact ⟨a, mem_univ a, hstrict⟩

/-- Witness for C3: with `N = 1`, `t = 1`, raising the positive-pair entry
`sim[0][1]` of the all-zero similarity matrix from `0` to `1` strictly
decreases the loss. -/
theorem ntXentOfSim_strictAnti_positive_pair_witness :
    ntXentOfSim (fun x y => if x = 0 ∧ y = 1 then (1 : ℝ) else 0 :
        Fin (2 * 1) → Fin (2 * 1) → ℝ) 1 <
      ntXentOfSim (fun _ _ => (0 : ℝ) : Fin (2 * 1) → Fin (2 * 1) → ℝ) 1 :=
  ntXentOfSim_strictAnti_positive_pair 1 0 1 (fun _ _ => 0)
    (fun x y => if x = 0 ∧ y = 1 then (1 : ℝ) else 0) one_pos (by decide)
    (by norm_num) (fun x y h => if_neg h)


theorem concatBatch_swap (z1 z2 : Fin N → Fin D → ℝ) (i : Fin (2 * N)) :
    concatBatch z2 z1 i = concatBatch z1 z2 (partner i) := by
  unfold concatBatch partner
  by_cases h : (i : ℕ) < N
  · have h2 : ¬((⟨(i : ℕ) + N, by omega⟩ : Fin (2 * N)) : ℕ) < N := by
      show ¬((i : ℕ) + N < N)
      omega
    rw [dif_pos h, dif_pos h, dif_neg h2]
    refine congrArg z2 (Fin.ext ?_)
    show (i : ℕ) = (i : ℕ) + N - N
    omega
  · have hi := i.isLt
    have h2 : ((⟨(i : ℕ) - N, by omega⟩ : Fin (2 * N)) : ℕ) < N := by
      show (i : ℕ) - N < N
      omega
    rw [dif_neg h, dif_neg h, dif_pos h2]

theorem simMatrix_swap (z1 z2 : Fin N → Fin D → ℝ) (i j : Fin (2 * N)) :
    simMatrix (concatBatch z2 z1) i j =
      simMatrix (concatBatch z1 z2) (partner i) (partner j) := by
  unfold simMatrix
  exact Finset.sum_congr rfl
    (fun d _ => by rw [concatBatch_swap z1 z2 i, concatBatch_swap z1 z2 j])

/-- The partner involution as a permutation of the `2N` concatenated rows. -/
def partnerPerm : Fin (2 * N) ≃ Fin (2 * N) :=
  ⟨partner, partner, partner_partner, partner_partner⟩

theorem partner_eq_iff (i j : Fin (2 * N)) :
    i = j ↔ partner i = partner j := by
  constructor
  · intro h
    rw [h]
  · intro h
    have := congrArg partner h
    rwa [partner_partner, partner_partner] at this

theorem maskedSim_reindex (S : Fin (2 * N) → Fin (2 * N) → ℝ) (t : ℝ)
    (i j : Fin (2 * N)) :
    maskedSim (fun a b => S (partner a) (partner b)) t i j =
      maskedSim S t (partner i) (partner j) := by
  unfold maskedSim
  rw [if_congr (partner_eq_iff i j) rfl rfl]

theorem ntXentOfSim_reindex (S : Fin (2 * N) → Fin (2 * N) → ℝ) (t : ℝ) :
    ntXentOfSim (fun a b => S (partner a) (partner b)) t = ntXentOfSim S t := by
  unfold ntXentOfSim
  congr 1
  apply Fintype.sum_equiv partnerPerm
  intro x
  have h1 : maskedSim (fun a b => S (partner a) (partner b)) t x (partner x) =
      maskedSim S t (partnerPerm x) (partner (partnerPerm x)) := by
    rw [maskedSim_reindex]
    rfl
  have h2 : (∑ k, Real.exp
        (maskedSim (fun a b => S (partner a) (partner b)) t x k)) =
      ∑ k, Real.exp (maskedSim S t (partnerPerm x) k) := by
    rw [Finset.sum_congr rfl (fun k _ => by rw [maskedSim_reindex S t x k])]
    exact Equiv.sum_comp partnerPerm
      (fun k => Real.exp (maskedSim S t (partnerPerm x) k))
  rw [h1, h2]

/-- C9: `contrastive_loss` is symmetric in its two batch arguments. Swapping
`z1` and `z2` permutes the `2N` concatenated rows by the partner involution,
which permutes the per-sample losses and leaves the mean unchanged. -/
theorem contrastive_loss_comm (z1 z2 : Fin N → Fin D → ℝ) (t : ℝ)
    (ht : 0 < t) :
    contrastive_loss z2 z1 t = contrastive_loss z1 z2 t := by
  unfold contrastive_loss
  have hsw : simMatrix (concatBatch z2 z1) =
      fun a b => simMatrix (concatBatch z1 z2) (partner a) (partner b) :=
    funext fun a => funext fun b => simMatrix_swap z1 z2 a b
  rw [hsw, ntXentOfSim_reindex]

/-- Witness for C9 at the concrete batches `z1 = [[1]]`, `z2 = [[0]]` and
temperature `1`. -/
theorem contrastive_loss_comm_witness :
    contrastive_loss (fun _ _ => (0 : ℝ) : Fin 1 → Fin 1 → ℝ)
        (fun _ _ => 1) 1 =
      contrastive_loss (fun _ _ => (1 : ℝ) : Fin 1 → Fin 1 → ℝ)
        (fun _ _ => 0) 1 :=
  contrastive_loss_comm (fun _ _ => 1) (fun _ _ => 0) 1 one_pos

/-! ### Encoder and projection head (`simclr.ipynb`, `create_encoder`)

`create_encoder` builds `Conv2D(32, 3, strides=2, relu)` →
`Conv2D(64, 3, strides=2, relu)` → `GlobalAveragePooling2D` →
`Dense(64, relu)` → `Dense(32)` → `tf.math.l2_normalize(axis=1)` on
`28×28×1` inputs (valid padding, so spatial sizes go 28 → 13 → 6).
Kernel and bias parameters are explicit; freshly built Keras layers
initialize every bias to zero. -/

/-- Embeds `tf.keras.activations.relu`. -/
def relu (x : ℝ) : ℝ := max x 0

/-- The trainable parameters of the `create_encoder` network. -/
structure EncoderParams where
  convK1 : Fin 3 → Fin 3 → Fin 32 → ℝ
  convB1 : Fin 32 → ℝ
  convK2 : Fin 3 → Fin 3 → Fin 32 → Fin 64 → ℝ
  convB2 : Fin 64 → ℝ
  denseW1 : Fin 64 → Fin 64 → ℝ
  denseB1 : Fin 64 → ℝ
  denseW2 : Fin 64 → Fin 32 → ℝ
  denseB2 : Fin 32 → ℝ

/-- Embeds `layers.Conv2D(32, 3, strides=2, activation='relu')` on a `28×28×1`
input (valid padding): output position `(i, j)` reads the `3×3` window at
`(2i, 2j)`. -/
def conv1 (p : EncoderParams) (x : Fin 28 → Fin 28 → ℝ) :
    Fin 13 → Fin 13 → Fin 32 → ℝ :=
  fun i j c => relu
    ((∑ a : Fin 3, ∑ b : Fin 3,
        x ⟨2 * (i : ℕ) + (a : ℕ), by omega⟩ ⟨2 * (j : ℕ) + (b : ℕ), by omega⟩ *
          p.convK1 a b c) +
      p.convB1 c)

/-- Embeds `layers.Conv2D(64, 3, strides=2, activation='relu')` on the `13×13×32`
feature map. -/
def conv2 (p : EncoderParams) (h : Fin 13 → Fin 13 → Fin 32 → ℝ) :
    Fin 6 → Fin 6 → Fin 64 → ℝ :=
  fun i j c => relu
    ((∑ a : Fin 3, ∑ b : Fin 3, ∑ ci : Fin 32,
        h ⟨2 * (i : ℕ) + (a : ℕ), by omega⟩ ⟨2 * (j : ℕ) + (b : ℕ), by omega⟩ ci *
          p.convK2 a b ci c) +
      p.convB2 c)

/-- Embeds `layers.GlobalAveragePooling2D()`: mean over the `6×6` spatial grid. -/
def globalAvgPool (h : Fin 6 → Fin 6 → Fin 64 → ℝ) : Fin 64 → ℝ :=
  fun c => (∑ i : Fin 6, ∑ j : Fin 6, h i j c) / 36

/-- Embeds `layers.Dense(64, activation='relu')` of the projection head. -/
def dense1 (p : EncoderParams) (v : Fin 64 → ℝ) : Fin 64 → ℝ :=
  fun o => relu ((∑ k, v k * p.denseW1 k o) + p.denseB1 o)

/-- Embeds `layers.Dense(projection_dim)` with `projection_dim = 32` (linear). -/
def dense2 (p : EncoderParams) (v : Fin 64 → ℝ) : Fin 32 → ℝ :=
  fun o => (∑ k, v k * p.denseW2 k o) + p.denseB2 o

/-- The projection-head output before normalization. -/
def encoderFeatures (p : EncoderParams) (x : Fin 28 → Fin 28 → ℝ) :
    Fin 32 → ℝ :=
  dense2 p (dense1 p (globalAvgPool (conv2 p (conv1 p x))))

/-- Embeds `tf.math.l2_normalize(v, axis=1)` on one row:
`v * rsqrt(max(sum(v²), eps))` with `eps = 1e-12`. -/
def l2_normalize (v : Fin 32 → ℝ) : Fin 32 → ℝ :=
  fun j => v j / Real.sqrt (max (∑ k, v k ^ 2) 1e-12)

/-- The model returned by `create_encoder`, applied to one input image
(rows of a batch are processed independently). -/
def create_encoder (p : EncoderParams) (x : Fin 28 → Fin 28 → ℝ) :
    Fin 32 → ℝ :=
  l2_normalize (encoderFeatures p x)

/-- Euclidean norm of an embedding row. -/
def euclideanNorm (v : Fin 32 → ℝ) : ℝ := Real.sqrt (∑ k, v k ^ 2)

/-- C4 (amended): a row of the encoder output has Euclidean norm exactly 1
whenever the pre-normalization feature row has squared norm at least the
library epsilon `1e-12`; below that threshold (e.g. the zero feature row)
`l2_normalize` does not produce a unit vector. -/
theorem create_encoder_row_norm_one (p : EncoderParams) {B : ℕ}
    (batch : Fin B → Fin 28 → Fin 28 → ℝ) (b : Fin B)
    (h : 1e-12 ≤ ∑ k, encoderFeatures p (batch b) k ^ 2) :
    euclideanNorm (create_encoder p (batch b)) = 1 := by
  unfold euclideanNorm create_encoder l2_normalize
  set v := encoderFeatures p (batch b) with hv
  have hmax : max (∑ k, v k ^ 2) 1e-12 = ∑ k, v k ^ 2 :=
    max_eq_left (le_trans (by norm_num) h)
  have hS : (0 : ℝ) < ∑ k, v k ^ 2 := lt_of_lt_of_le (by norm_num) h
  have hsq : Real.sqrt (max (∑ k, v k ^ 2) 1e-12) ^ 2 = ∑ k, v k ^ 2 := by
    rw [hmax, Real.sq_sqrt hS.le]
  have : (∑ k, (v k / Real.sqrt (max (∑ k, v k ^ 2) 1e-12)) ^ 2) = 1 := by
    have hexp : ∀ k : Fin 32,
        (v k / Real.sqrt (max (∑ k, v k ^ 2) 1e-12)) ^ 2 =
          v k ^ 2 / (∑ k, v k ^ 2) := by
      intro k
      rw [div_pow, hsq]
    rw [Finset.sum_congr rfl (fun k _ => hexp k), ← Finset.sum_div,
      div_self (ne_of_gt hS)]
  rw [this, Real.sqrt_one]

/-- Freshly built Keras layers have all-zero biases; the all-zero parameter
assignment below is a concrete admissible weight configuration. -/
def zeroEncoderParams : EncoderParams :=
  ⟨fun _ _ _ => 0, fun _ => 0, fun _ _ _ _ => 0, fun _ => 0,
   fun _ _ => 0, fun _ => 0, fun _ _ => 0, fun _ => 0⟩

/-- As `zeroEncoderParams` but with final dense bias `(1, 0, ..., 0)`,
giving a pre-normalization feature row of squared norm `1`. -/
def unitBiasEncoderParams : EncoderParams :=
  { zeroEncoderParams with denseB2 := fun o => if o = 0 then 1 else 0 }

theorem encoderFeatures_zero :
    encoderFeatures zeroEncoderParams (fun _ _ => 0) = fun _ => 0 := by
  funext o
  unfold encoderFeatures dense2 dense1 globalAvgPool conv2 conv1 relu
    zeroEncoderParams
  simp

/-- C4 counterexample: on the all-zero input image (with the all-zero
admissible weight configuration) the row produced by `create_encoder` has
Euclidean norm `0`, not `1`: `l2_normalize` maps the zero feature row to the
zero vector instead of a unit vector. -/
theorem create_encoder_zero_not_unit :
    euclideanNorm (create_encoder zeroEncoderParams (fun _ _ => 0)) ≠ 1 := by
  have h0 : create_encoder zeroEncoderParams (fun _ _ => 0) = fun _ => 0 := by
    unfold create_encoder
    rw [encoderFeatures_zero]
    funext j
    unfold l2_normalize
    simp
  rw [h0]
  unfold euclideanNorm
  simp

theorem encoderFeatures_unitBias :
    encoderFeatures unitBiasEncoderParams (fun _ _ => 0) =
      fun o => if o = 0 then 1 else 0 := by
  funext o
  unfold encoderFeatures dense2 dense1 globalAvgPool conv2 conv1 relu
    unitBiasEncoderParams zeroEncoderParams
  simp

/-- Witness for C4 (amended) at the all-zero input image and the parameter
set whose final bias is `(1, 0, ..., 0)`: the feature row has squared norm
`1 ≥ 1e-12` and the encoder output row has norm exactly `1`. -/
theorem create_encoder_row_norm_one_witness :
    euclideanNorm (create_encoder unitBiasEncoderParams
      ((fun _ : Fin 1 => fun _ _ => (0 : ℝ)) 0)) = 1 :=
  create_encoder_row_norm_one unitBiasEncoderParams
    (fun _ : Fin 1 => fun _ _ => (0 : ℝ)) 0 (by
      rw [encoderFeatures_unitBias]
      have : (∑ k : Fin 32, (if k = 0 then (1 : ℝ) else 0) ^ 2) = 1 := by
        simp [apply_ite (· ^ 2)]
      rw [this]
      norm_num)

/-! ### Data augmentation (`simclr.ipynb`, `SimCLRPreprocessing`)

`SimCLRPreprocessing.__init__` builds the pipeline
`Rescaling(1/255)` → `RandomCrop(28, 28)` → `RandomFlip("horizontal")` →
`RandomRotation(0.1)` → `RandomZoom(0.2)`, and `call(x)` applies the
pipeline to `x` twice, drawing fresh randomness on each application.
MNIST images are `28×28×1`; the channel axis (size 1) is dropped.  The
random draws of the stochastic layers (crop offsets, flip coin, rotation
angle, zoom factor) are explicit parameters; the geometric layers resample
with bilinear interpolation over reflect-padded coordinates. -/

/-- Embeds `layers.Rescaling(1./255)`. -/
def rescaling (x : Fin 28 → Fin 28 → ℝ) : Fin 28 → Fin 28 → ℝ :=
  fun i j => x i j / 255

/-- Embeds `layers.RandomCrop(28, 28)` on a `28×28` input: the offset is drawn
from the single-element range `[0, 28 - 28]`, i.e. `Fin 1`. -/
def randomCrop (oh ow : Fin 1) (x : Fin 28 → Fin 28 → ℝ) :
    Fin 28 → Fin 28 → ℝ :=
  fun i j => x ⟨(i : ℕ) + (oh : ℕ), by omega⟩ ⟨(j : ℕ) + (ow : ℕ), by omega⟩

/-- Embeds `layers.RandomFlip("horizontal")`: a coin decides whether the columns
are reversed. -/
def randomFlip (b : Bool) (x : Fin 28 → Fin 28 → ℝ) :
    Fin 28 → Fin 28 → ℝ :=
  fun i j => x i (if b then j.rev else j)

/-- Reflect-mode index folding of an integer coordinate into `[0, 28)`
(period 56, mirrored upper half). -/
def reflectIdx (a : ℤ) : Fin 28 :=
  if h : a.emod 56 < 28 then
    ⟨(a.emod 56).toNat, by
      have h0 : 0 ≤ a.emod 56 := Int.emod_nonneg a (by norm_num)
      omega⟩
  else
    ⟨(55 - a.emod 56).toNat, by
      have h0 : 0 ≤ a.emod 56 := Int.emod_nonneg a (by norm_num)
      have h1 : a.emod 56 < 56 := Int.emod_lt_of_pos a (by norm_num)
      omega⟩

/-- Image lookup at integer coordinates with reflect fill. -/
def pixAt (x : Fin 28 → Fin 28 → ℝ) (a b : ℤ) : ℝ :=
  x (reflectIdx a) (reflectIdx b)

/-- Bilinear interpolation of the image at real coordinates
(`v` vertical/row, `u` horizontal/column). -/
def bilinear (x : Fin 28 → Fin 28 → ℝ) (v u : ℝ) : ℝ :=
  (1 - (v - ⌊v⌋)) * ((1 - (u - ⌊u⌋)) * pixAt x ⌊v⌋ ⌊u⌋ +
      (u - ⌊u⌋) * pixAt x ⌊v⌋ (⌊u⌋ + 1)) +
    (v - ⌊v⌋) * ((1 - (u - ⌊u⌋)) * pixAt x (⌊v⌋ + 1) ⌊u⌋ +
      (u - ⌊u⌋) * pixAt x (⌊v⌋ + 1) (⌊u⌋ + 1))

/-- The image center used by the Keras affine layers on a `28×28` grid. -/
def imgCtr : ℝ := 27 / 2

/-- Embeds `layers.RandomRotation(0.1)` at a drawn angle `θ` (sampled by the layer
in `[-0.1·2π, 0.1·2π]`): inverse rotation about the image center followed
by bilinear resampling. -/
def randomRotate (θ : ℝ) (x : Fin 28 → Fin 28 → ℝ) :
    Fin 28 → Fin 28 → ℝ :=
  fun i j => bilinear x
    (imgCtr + Real.sin θ * ((j : ℕ) - imgCtr) +
      Real.cos θ * ((i : ℕ) - imgCtr))
    (imgCtr + Real.cos θ * ((j : ℕ) - imgCtr) -
      Real.sin θ * ((i : ℕ) - imgCtr))

/-- Embeds `layers.RandomZoom(0.2)` at a drawn zoom factor `zf` (sampled by the
layer in `[1 - 0.2, 1 + 0.2]`): scaling about the image center followed by
bilinear resampling. -/
def randomZoom (zf : ℝ) (x : Fin 28 → Fin 28 → ℝ) :
    Fin 28 → Fin 28 → ℝ :=
  fun i j => bilinear x
    (imgCtr + zf * ((i : ℕ) - imgCtr))
    (imgCtr + zf * ((j : ℕ) - imgCtr))

/-- One draw of the randomness consumed by a single application of the
augmentation pipeline. -/
structure AugDraw where
  cropH : Fin 1
  cropW : Fin 1
  flip : Bool
  angle : ℝ
  zoom : ℝ

/-- One application of `self.augment` (the `tf.keras.Sequential` built in
`SimCLRPreprocessing.__init__`): the five layers in order. -/
def augmentSeq (ρ : AugDraw) (x : Fin 28 → Fin 28 → ℝ) :
    Fin 28 → Fin 28 → ℝ :=
  randomZoom ρ.zoom (randomRotate ρ.angle
    (randomFlip ρ.flip (randomCrop ρ.cropH ρ.cropW (rescaling x))))

/-- Embeds `SimCLRPreprocessing.call(x)`: `return self.augment(x), self.augment(x)`,
each application drawing its own randomness. -/
def simCLRPreprocessing_call (ρ1 ρ2 : AugDraw)
    (x : Fin 28 → Fin 28 → ℝ) :
    (Fin 28 → Fin 28 → ℝ) × (Fin 28 → Fin 28 → ℝ) :=
  (augmentSeq ρ1 x, augmentSeq ρ2 x)

/-- The randomness draw at which every stochastic layer acts trivially:
zero crop offset, no flip, zero rotation angle, zoom factor one. -/
def idDraw : AugDraw := ⟨0, 0, false, 0, 1⟩

theorem reflectIdx_coe (n : Fin 28) : reflectIdx ((n : ℕ) : ℤ) = n := by
  unfold reflectIdx
  have hn : (0 : ℤ) ≤ ((n : ℕ) : ℤ) := Int.ofNat_nonneg _
  have hn28 : ((n : ℕ) : ℤ) < 28 := by exact_mod_cast n.isLt
  have hmod : ((n : ℕ) : ℤ).emod 56 = ((n : ℕ) : ℤ) :=
    Int.emod_eq_of_lt hn (by omega)
  rw [dif_pos (by omega)]
  exact Fin.ext (by simp [hmod])

theorem pixAt_coe (x : Fin 28 → Fin 28 → ℝ) (i j : Fin 28) :
    pixAt x ((i : ℕ) : ℤ) ((j : ℕ) : ℤ) = x i j := by
  unfold pixAt
  rw [reflectIdx_coe, reflectIdx_coe]

theorem bilinear_coe (x : Fin 28 → Fin 28 → ℝ) (i j : Fin 28) :
    bilinear x ((i : ℕ) : ℝ) ((j : ℕ) : ℝ) = x i j := by
  unfold bilinear
  simp [Int.floor_natCast, pixAt_coe]

theorem randomCrop_id (x : Fin 28 → Fin 28 → ℝ) :
    randomCrop 0 0 x = x := by
  funext i j
  unfold randomCrop
  congr 1

theorem randomFlip_id (x : Fin 28 → Fin 28 → ℝ) :
    randomFlip false x = x := by
  funext i j
  unfold randomFlip
  simp

theorem randomRotate_id (x : Fin 28 → Fin 28 → ℝ) :
    randomRotate 0 x = x := by
  funext i j
  unfold randomRotate
  rw [Real.sin_zero, Real.cos_zero]
  have hv : imgCtr + 0 * (((i : ℕ) : ℝ) - imgCtr) +
      1 * (((i : ℕ) : ℝ) - imgCtr) = ((i : ℕ) : ℝ) := by ring
  have hv' : imgCtr + 0 * (((j : ℕ) : ℝ) - imgCtr) +
      1 * (((i : ℕ) : ℝ) - imgCtr) = ((i : ℕ) : ℝ) := by ring
  have hu : imgCtr + 1 * (((j : ℕ) : ℝ) - imgCtr) -
      0 * (((i : ℕ) : ℝ) - imgCtr) = ((j : ℕ) : ℝ) := by ring
  rw [hv', hu, bilinear_coe]

theorem randomZoom_id (x : Fin 28 → Fin 28 → ℝ) :
    randomZoom 1 x = x := by
  funext i j
  unfold randomZoom
  have hv : imgCtr + 1 * (((i : ℕ) : ℝ) - imgCtr) = ((i : ℕ) : ℝ) := by ring
  have hu : imgCtr + 1 * (((j : ℕ) : ℝ) - imgCtr) = ((j : ℕ) : ℝ) := by ring
  rw [hv, hu, bilinear_coe]

/-- C5: `SimCLRPreprocessing.call` returns the pair of two views, each
obtained by one separate application of the five-stage augmentation
pipeline (rescale → random crop → random flip → random rotation → random
zoom) to the input, under its own random draw; moreover at the trivial
draws the pipeline reduces to the deterministic `Rescaling(1/255)` stage,
so both views are then the rescaled input. -/
theorem simCLRPreprocessing_call_spec (ρ1 ρ2 : AugDraw)
    (x : Fin 28 → Fin 28 → ℝ) :
    simCLRPreprocessing_call ρ1 ρ2 x =
      (randomZoom ρ1.zoom (randomRotate ρ1.angle (randomFlip ρ1.flip
          (randomCrop ρ1.cropH ρ1.cropW (rescaling x)))),
       randomZoom ρ2.zoom (randomRotate ρ2.angle (randomFlip ρ2.flip
          (randomCrop ρ2.cropH ρ2.cropW (rescaling x))))) ∧
    simCLRPreprocessing_call idDraw idDraw x = (rescaling x, rescaling x) := by
  constructor
  · rfl
  · unfold simCLRPreprocessing_call
    have hid : augmentSeq idDraw x = rescaling x := by
      show randomZoom 1 (randomRotate 0 (randomFlip false
        (randomCrop 0 0 (rescaling x)))) = rescaling x
      rw [randomCrop_id, randomFlip_id, randomRotate_id, randomZoom_id]
    rw [hid]

/-! ### Contrastive training pipeline (`simclr.ipynb`, `train_ds` and the
training loop)

`train_ds = Dataset.from_tensor_slices(x_train).shuffle(1024).map(augment)
.batch(512).prefetch(...)`.  Shuffling is modelled as an arbitrary
permutation of the loaded images, `map(augment)` consumes one pair of
random draws per image, and `.batch(512)` groups the resulting view pairs
into chunks of 512.  The training loop iterates over the batches and feeds
exactly the two views `x1, x2` of each batch to the encoder. -/

/-- Embeds `.batch(512)`: split a list into consecutive chunks of size 512. -/
def batchify {α : Type} (l : List α) : List (List α) :=
  match l with
  | [] => []
  | x :: xs => ((x :: xs).take 512) :: batchify ((x :: xs).drop 512)
termination_by l.length
decreasing_by
  simp only [List.length_drop, List.length_cons]
  omega

theorem batchify_flatten {α : Type} (l : List α) : (batchify l).flatten = l := by
  induction l using batchify.induct with
  | case1 => simp [batchify]
  | case2 x xs ih =>
    rw [batchify, List.flatten_cons, ih, List.take_append_drop]

theorem mem_of_mem_batchify {α : Type} {l b : List α} {v : α}
    (hb : b ∈ batchify l) (hv : v ∈ b) : v ∈ l :=
  (batchify_flatten l) ▸ List.mem_flatten.mpr ⟨b, hb, hv⟩

/-- The `train_ds` pipeline after shuffling: one `SimCLRPreprocessing.call`
per image (with that element's random draws), then `.batch(512)`. -/
def train_ds (shuffled : List (Fin 28 → Fin 28 → ℝ))
    (draws : List (AugDraw × AugDraw)) :
    List (List ((Fin 28 → Fin 28 → ℝ) × (Fin 28 → Fin 28 → ℝ))) :=
  batchify ((shuffled.zip draws).map
    (fun p => simCLRPreprocessing_call p.2.1 p.2.2 p.1))

/-- The tensors the training loop passes to the encoder: for each batch of
`train_ds` and each element, the two views `x1` and `x2`. -/
def encoderInputs (shuffled : List (Fin 28 → Fin 28 → ℝ))
    (draws : List (AugDraw × AugDraw)) : List (Fin 28 → Fin 28 → ℝ) :=
  (train_ds shuffled draws).bind (fun batch =>
    batch.bind (fun v => [v.1, v.2]))

/-- C6: augmentation sits between dataset loading and model evaluation —
every element of every batch consumed by the SimCLR training loop is a pair
of views produced by `SimCLRPreprocessing.call` from one of the loaded
training images, and every tensor fed to the encoder during contrastive
training is one such augmented view (never a raw image). -/
theorem train_ds_all_augmented (xs shuffled : List (Fin 28 → Fin 28 → ℝ))
    (draws : List (AugDraw × AugDraw)) (hperm : shuffled.Perm xs) :
    (∀ b ∈ train_ds shuffled draws, ∀ v ∈ b,
        ∃ x ∈ xs, ∃ ρ1 ρ2, v = simCLRPreprocessing_call ρ1 ρ2 x) ∧
    (∀ y ∈ encoderInputs shuffled draws,
        ∃ x ∈ xs, ∃ ρ, y = augmentSeq ρ x) := by
  have hmain : ∀ v ∈ (shuffled.zip draws).map
      (fun p => simCLRPreprocessing_call p.2.1 p.2.2 p.1),
      ∃ x ∈ xs, ∃ ρ1 ρ2, v = simCLRPreprocessing_call ρ1 ρ2 x := by
    intro v hv
    rcases List.mem_map.mp hv with ⟨p, hp, rfl⟩
    have hx : p.1 ∈ shuffled := (List.of_mem_zip hp).1
    exact ⟨p.1, hperm.mem_iff.mp hx, p.2.1, p.2.2, rfl⟩
  constructor
  · intro b hb v hv
    exact hmain v (mem_of_mem_batchify hb hv)
  · intro y hy
    rcases List.mem_bind.mp hy with ⟨batch, hbatch, hyb⟩
    rcases List.mem_bind.mp hyb with ⟨v, hv, hyv⟩
    obtain ⟨x, hx, ρ1, ρ2, rfl⟩ := hmain v (mem_of_mem_batchify hbatch hv)
    simp only [List.mem_cons, List.mem_singleton] at hyv
    rcases hyv with h | h | h
    · exact ⟨x, hx, ρ1, h⟩
    · exact ⟨x, hx, ρ2, h⟩
    · exact absurd h (List.not_mem_nil y)

theorem batchify_singleton {α : Type} (a : α) : batchify [a] = [[a]] := by
  rw [batchify]
  rw [List.take_of_length_le (by simp), List.drop_eq_nil_of_le (by simp)]
  rw [batchify]

/-- Witness for C6 on the one-image dataset `[0]` (left unshuffled) with one
pair of trivial draws: the single element of the single batch is an
augmented pair of the loaded image. -/
theorem train_ds_all_augmented_witness :
    ∃ x ∈ [(fun _ _ => (0 : ℝ) : Fin 28 → Fin 28 → ℝ)], ∃ ρ1 ρ2,
      simCLRPreprocessing_call idDraw idDraw (fun _ _ => (0 : ℝ)) =
        simCLRPreprocessing_call ρ1 ρ2 x := by
  have hds : train_ds [(fun _ _ => (0 : ℝ) : Fin 28 → Fin 28 → ℝ)]
      [(idDraw, idDraw)] =
      [[simCLRPreprocessing_call idDraw idDraw (fun _ _ => (0 : ℝ))]] := by
    unfold train_ds
    exact batchify_singleton _
  exact (train_ds_all_augmented
      [(fun _ _ => (0 : ℝ) : Fin 28 → Fin 28 → ℝ)]
      [(fun _ _ => (0 : ℝ) : Fin 28 → Fin 28 → ℝ)]
      [(idDraw, idDraw)] (List.Perm.refl _)).1
    [simCLRPreprocessing_call idDraw idDraw (fun _ _ => (0 : ℝ))]
    (by rw [hds]; exact List.mem_singleton.mpr rfl)
    (simCLRPreprocessing_call idDraw idDraw (fun _ _ => (0 : ℝ)))
    (List.mem_singleton.mpr rfl)

/-! ### Error handling (both notebooks)

Neither notebook contains a `try`/`except`, retry, or fallback: each is a
straight-line sequence of library calls.  Each stage (dataset download,
preprocessing, training loop, prediction, plotting) is modelled as an
`Except`-valued oracle, and the notebook is the left-to-right bind chain of
its stages, so a failure raised inside any library call propagates to the
caller unchanged. -/

/-- The `simclr.ipynb` cell sequence: `mnist.load_data` → `train_ds`
construction → the 20-epoch contrastive training loop → t-SNE
visualization → linear evaluation (`classifier.fit`) → second t-SNE
visualization. -/
def simclrScript {ε Raw DS Model Clf : Type}
    (load : Except ε Raw) (prep : Raw → Except ε DS)
    (train : DS → Except ε Model) (viz : Model → Except ε Unit)
    (linEval : Model → Except ε Clf) (viz2 : Clf → Except ε Unit) :
    Except ε Unit := do
  let raw ← load
  let ds ← prep raw
  let m ← train ds
  viz m
  let c ← linEval m
  viz2 c

/-- The `anomaly_detection_jets.ipynb` cell sequence: `TopTagging(...)`
download → shuffle/split → `to_image` + rescaling → `plot_jet_images` →
`model.fit` → `model.predict` → loss histogram. -/
def jetsScript {ε Raw Split Imgs Model Preds : Type}
    (download : Except ε Raw) (split : Raw → Except ε Split)
    (toImages : Split → Except ε Imgs) (plotImgs : Imgs → Except ε Unit)
    (fit : Imgs → Except ε Model) (predict : Model → Except ε Preds)
    (histPlot : Preds → Except ε Unit) : Except ε Unit := do
  let raw ← download
  let sp ← split raw
  let imgs ← toImages sp
  plotImgs imgs
  let m ← fit imgs
  let preds ← predict m
  histPlot preds

/-- C7: no operation defined by the repository catches or recovers from
errors: whichever stage of either notebook fails first, its exception
value is returned to the caller unchanged (no handler, retry, or
fallback). -/
theorem scripts_propagate_errors {ε Raw DS Model Clf : Type}
    {JRaw JSplit Imgs JModel Preds : Type} (e : ε)
    (load : Except ε Raw) (prep : Raw → Except ε DS)
    (train : DS → Except ε Model) (viz : Model → Except ε Unit)
    (linEval : Model → Except ε Clf) (viz2 : Clf → Except ε Unit)
    (download : Except ε JRaw) (split : JRaw → Except ε JSplit)
    (toImages : JSplit → Except ε Imgs) (plotImgs : Imgs → Except ε Unit)
    (fit : Imgs → Except ε JModel) (predict : JModel → Except ε Preds)
    (histPlot : Preds → Except ε Unit) :
    (load = .error e →
      simclrScript load prep train viz linEval viz2 = .error e) ∧
    (∀ r, load = .ok r → prep r = .error e →
      simclrScript load prep train viz linEval viz2 = .error e) ∧
    (∀ r d, load = .ok r → prep r = .ok d → train d = .error e →
      simclrScript load prep train viz linEval viz2 = .error e) ∧
    (∀ r d m, load = .ok r → prep r = .ok d → train d = .ok m →
      viz m = .error e →
      simclrScript load prep train viz linEval viz2 = .error e) ∧
    (∀ r d m, load = .ok r → prep r = .ok d → train d = .ok m →
      viz m = .ok () → linEval m = .error e →
      simclrScript load prep train viz linEval viz2 = .error e) ∧
    (∀ r d m c, load = .ok r → prep r = .ok d → train d = .ok m →
      viz m = .ok () → linEval m = .ok c → viz2 c = .error e →
      simclrScript load prep train viz linEval viz2 = .error e) ∧
    (download = .error e →
      jetsScript download split toImages plotImgs fit predict histPlot =
        .error e) ∧
    (∀ r, download = .ok r → split r = .error e →
      jetsScript download split toImages plotImgs fit predict histPlot =
        .error e) ∧
    (∀ r s, download = .ok r → split r = .ok s → toImages s = .error e →
      jetsScript download split toImages plotImgs fit predict histPlot =
        .error e) ∧
    (∀ r s im, download = .ok r → split r = .ok s → toImages s = .ok im →
      plotImgs im = .error e →
      jetsScript download split toImages plotImgs fit predict histPlot =
        .error e) ∧
    (∀ r s im, download = .ok r → split r = .ok s → toImages s = .ok im →
      plotImgs im = .ok () → fit im = .error e →
      jetsScript download split toImages plotImgs fit predict histPlot =
        .error e) ∧
    (∀ r s im m, download = .ok r → split r = .ok s → toImages s = .ok im →
      plotImgs im = .ok () → fit im = .ok m → predict m = .error e →
      jetsScript download split toImages plotImgs fit predict histPlot =
        .error e) ∧
    (∀ r s im m p, download = .ok r → split r = .ok s → toImages s = .ok im →
      plotImgs im = .ok () → fit im = .ok m → predict m = .ok p →
      histPlot p = .error e →
      jetsScript download split toImages plotImgs fit predict histPlot =
        .error e) := by
  refine ⟨?_, ?_, ?_, ?_, ?_, ?_, ?_, ?_, ?_, ?_, ?_, ?_, ?_⟩ <;>
    (intros; simp_all [simclrScript, jetsScript, Bind.bind, Except.bind])

/-- Witness for C7: when the dataset load fails with error code `7`, the
SimCLR notebook run returns exactly that error. -/
theorem scripts_propagate_errors_witness :
    simclrScript (Except.error 7 : Except ℕ Unit)
      (fun _ : Unit => Except.ok ()) (fun _ : Unit => Except.ok ())
      (fun _ : Unit => Except.ok ()) (fun _ : Unit => Except.ok ())
      (fun _ : Unit => Except.ok ()) = Except.error 7 :=
  (scripts_propagate_errors 7 (Except.error 7 : Except ℕ Unit)
      (fun _ : Unit => Except.ok ()) (fun _ : Unit => Except.ok ())
      (fun _ : Unit => Except.ok ()) (fun _ : Unit => Except.ok ())
      (fun _ : Unit => Except.ok ()) (Except.ok () : Except ℕ Unit)
      (fun _ : Unit => Except.ok ()) (fun _ : Unit => Except.ok ())
      (fun _ : Unit => Except.ok ()) (fun _ : Unit => Except.ok ())
      (fun _ : Unit => Except.ok ()) (fun _ : Unit => Except.ok ())).1 rfl

/-! ### Plotting (`anomaly_detection_jets.ipynb`, `plot_jet_images`)

`plot_jet_images(images, titles, filename="jet_image.pdf")` opens a figure
of width `5 * n_images`, draws one subplot (title, `imshow`, colorbar,
axis labels) per element of `zip(images, titles)`, calls `tight_layout`,
and performs exactly one file write: `plt.savefig(filename)`.  The
matplotlib calls are modelled as an emitted command trace. -/

/-- One matplotlib call emitted by `plot_jet_images`. -/
inductive PlotCmd where
  | figure (w h : ℕ)
  | subplot (rows cols idx : ℕ)
  | title (s : String)
  | imshow (img : Fin 16 → Fin 16 → ℝ)
  | colorbar
  | xlabel (s : String)
  | ylabel (s : String)
  | cbarLabel (s : String)
  | tightLayout
  | savefig (f : String)

/-- The body of the `for i, (image, title) in enumerate(zip(...))` loop. -/
def subplotBlock (n : ℕ) (p : ℕ × ((Fin 16 → Fin 16 → ℝ) × String)) :
    List PlotCmd :=
  [PlotCmd.subplot 1 n (p.1 + 1), PlotCmd.title p.2.2,
   PlotCmd.imshow p.2.1, PlotCmd.colorbar,
   PlotCmd.xlabel "Delta-eta cell", PlotCmd.ylabel "Delta-phi cell",
   PlotCmd.cbarLabel "pT over jet pT"]

/-- Embeds `plot_jet_images` as the matplotlib command trace it emits. -/
def plot_jet_images (images : List (Fin 16 → Fin 16 → ℝ))
    (titles : List String) (filename : String := "jet_image.pdf") :
    List PlotCmd :=
  PlotCmd.figure (5 * images.length) 5 ::
    ((images.zip titles).enum.flatMap (subplotBlock images.length) ++
      [PlotCmd.tightLayout, PlotCmd.savefig filename])

/-- The file outputs of a command trace (the `savefig` calls). -/
def savedFiles (cmds : List PlotCmd) : List String :=
  cmds.filterMap (fun c => match c with
    | PlotCmd.savefig f => some f
    | _ => none)

/-- Number of subplots rendered by a command trace. -/
def subplotCount (cmds : List PlotCmd) : ℕ :=
  cmds.countP (fun c => match c with
    | PlotCmd.subplot _ _ _ => true
    | _ => false)

theorem subplotCount_blocks (n : ℕ)
    (l : List (ℕ × ((Fin 16 → Fin 16 → ℝ) × String))) :
    (l.flatMap (subplotBlock n)).countP (fun c => match c with
      | PlotCmd.subplot _ _ _ => true
      | _ => false) = l.length := by
  induction l with
  | nil => rfl
  | cons a l ih =>
    rw [List.flatMap_cons, List.countP_append, ih]
    have hblk : (subplotBlock n a).countP (fun c => match c with
        | PlotCmd.subplot _ _ _ => true
        | _ => false) = 1 := rfl
    rw [hblk, List.length_cons]
    omega

theorem savedFiles_blocks (n : ℕ)
    (l : List (ℕ × ((Fin 16 → Fin 16 → ℝ) × String))) :
    (l.flatMap (subplotBlock n)).filterMap (fun c => match c with
      | PlotCmd.savefig f => some f
      | _ => none) = [] := by
  induction l with
  | nil => rfl
  | cons a l ih =>
    rw [List.flatMap_cons, List.filterMap_append, ih]
    rfl

/-- C8 (amended): `plot_jet_images` renders one subplot per element of
`zip(images, titles)` — hence one per element of `images` whenever
`titles` is at least as long — and its only file output is one write of
the figure to `filename`, which defaults to `"jet_image.pdf"`. -/
theorem plot_jet_images_spec (images : List (Fin 16 → Fin 16 → ℝ))
    (titles : List String) (filename : String)
    (hlen : images.length ≤ titles.length) :
    subplotCount (plot_jet_images images titles filename) = images.length ∧
    savedFiles (plot_jet_images images titles filename) = [filename] ∧
    savedFiles (plot_jet_images images titles) = ["jet_image.pdf"] := by
  refine ⟨?_, ?_, ?_⟩
  · unfold subplotCount plot_jet_images
    rw [List.countP_cons, List.countP_append, subplotCount_blocks,
      List.enum_length, List.length_zip]
    simp [Nat.min_eq_left hlen]
  · unfold savedFiles plot_jet_images
    rw [List.filterMap_cons, List.filterMap_append, savedFiles_blocks]
    rfl
  · unfold savedFiles plot_jet_images
    rw [List.filterMap_cons, List.filterMap_append, savedFiles_blocks]
    rfl

/-- Witness for C8 on one image with one title and an explicit filename. -/
theorem plot_jet_images_spec_witness :
    subplotCount (plot_jet_images [fun _ _ => 0] ["QCD jet image"]
        "plot.pdf") = 1 ∧
    savedFiles (plot_jet_images [fun _ _ => 0] ["QCD jet image"]
        "plot.pdf") = ["plot.pdf"] ∧
    savedFiles (plot_jet_images [fun _ _ => 0] ["QCD jet image"]) =
      ["jet_image.pdf"] :=
  plot_jet_images_spec [fun _ _ => 0] ["QCD jet image"] "plot.pdf"
    (by norm_num)

/-- C8 counterexample: with one image but an empty title list the
`zip`-driven loop renders no subplot at all, so the claim "one subplot per
element of `images`" fails: the trace contains `0 ≠ 1` subplots. -/
theorem plot_jet_images_title_truncation :
    subplotCount (plot_jet_images [fun _ _ => 0] []) ≠
      [(fun _ _ => (0 : ℝ) : Fin 16 → Fin 16 → ℝ)].length := by
  have h0 : subplotCount (plot_jet_images [fun _ _ => 0] []) = 0 := rfl
  rw [h0]
  norm_num

/-! ### Jet-image normalization (`anomaly_detection_jets.ipynb`)

Preprocessing divides each `16×16` jet image by its total pixel sum
(`images / np.sum(images.reshape(..., im_size * im_size), axis=-1)`), and
the autoencoder ends in `Softmax(axis=[-2, -3])`, a softmax over the two
spatial axes of the `16×16×1` output. -/

/-- The per-image rescaling of cell 4: divide by the total pixel sum. -/
def rescaleJetImage (img : Fin 16 → Fin 16 → ℝ) : Fin 16 → Fin 16 → ℝ :=
  fun i j => img i j / ∑ a, ∑ b, img a b

/-- The final `Softmax(axis=[-2, -3])` layer of the autoencoder, applied to
the pre-activation map produced by the decoder stack. -/
def spatialSoftmax (z : Fin 16 → Fin 16 → ℝ) : Fin 16 → Fin 16 → ℝ :=
  fun i j => Real.exp (z i j) / ∑ a, ∑ b, Real.exp (z a b)

/-- C10: the autoencoder preserves the per-image normalization invariant —
a preprocessed input image (any image with positive total) has pixel sum
exactly 1, and for every pre-activation map the spatial-Softmax output of
the model has non-negative pixels summing to 1 over the 16×16 grid. -/
theorem jet_normalization_invariant (img z : Fin 16 → Fin 16 → ℝ)
    (h : 0 < ∑ a, ∑ b, img a b) :
    (∑ i, ∑ j, rescaleJetImage img i j) = 1 ∧
    (∀ i j, 0 ≤ spatialSoftmax z i j) ∧
    (∑ i, ∑ j, spatialSoftmax z i j) = 1 := by
  refine ⟨?_, ?_, ?_⟩
  · unfold rescaleJetImage
    rw [show (∑ i, ∑ j, img i j / ∑ a, ∑ b, img a b) =
        (∑ i, ∑ j, img i j) / ∑ a, ∑ b, img a b by
      rw [Finset.sum_div]
      exact Finset.sum_congr rfl (fun i _ => by rw [Finset.sum_div])]
    exact div_self (ne_of_gt h)
  · intro i j
    unfold spatialSoftmax
    positivity
  · unfold spatialSoftmax
    have hpos : (0 : ℝ) < ∑ a, ∑ b, Real.exp (z a b) :=
      Finset.sum_pos (fun a _ =>
        Finset.sum_pos (fun b _ => Real.exp_pos _) ⟨0, mem_univ 0⟩)
        ⟨0, mem_univ 0⟩
    rw [show (∑ i, ∑ j, Real.exp (z i j) / ∑ a, ∑ b, Real.exp (z a b)) =
        (∑ i, ∑ j, Real.exp (z i j)) / ∑ a, ∑ b, Real.exp (z a b) by
      rw [Finset.sum_div]
      exact Finset.sum_congr rfl (fun i _ => by rw [Finset.sum_div])]
    exact div_self (ne_of_gt hpos)

/-- Witness for C10 at the constant image `1` (total `256 > 0`) and the
zero pre-activation map. -/
theorem jet_normalization_invariant_witness :
    (∑ i, ∑ j, rescaleJetImage (fun _ _ => 1) i j) = 1 ∧
    (∀ i j, 0 ≤ spatialSoftmax (fun _ _ => 0) i j) ∧
    (∑ i, ∑ j, spatialSoftmax (fun _ _ => 0) i j) = 1 :=
  jet_normalization_invariant (fun _ _ => 1) (fun _ _ => 0)
    (by norm_num [Finset.sum_const, Finset.card_univ])
